import Mathlib

/-!
Verification development for the dual-format document line extractor
(`hwpx_parser.py`).  Python strings are modelled as `List Char`
(sequences of Unicode code points), byte buffers as `List Nat`
(each entry one byte).  Machine words are `Nat` with explicit masking,
matching the Python `struct.unpack("<I", ...)` reads.
-/

/-- Python `str.isspace` / the whitespace set stripped by `str.strip()`. -/
def pySpace (c : Char) : Bool :=
  (9 ≤ c.toNat && c.toNat ≤ 13) || c.toNat == 32 ||
  (28 ≤ c.toNat && c.toNat ≤ 31) || c.toNat == 133 || c.toNat == 160 ||
  c.toNat == 5760 || (8192 ≤ c.toNat && c.toNat ≤ 8202) ||
  c.toNat == 8232 || c.toNat == 8233 || c.toNat == 8239 ||
  c.toNat == 8287 || c.toNat == 12288

/-- Python `str.lstrip()`: drop leading whitespace. -/
def pyLstrip (cs : List Char) : List Char := cs.dropWhile pySpace

/-- Python `str.rstrip()`: drop trailing whitespace. -/
def pyRstrip (cs : List Char) : List Char := (cs.reverse.dropWhile pySpace).reverse

/-- Python `str.strip()`: drop whitespace at both ends. -/
def pyStrip (cs : List Char) : List Char := pyRstrip (pyLstrip cs)

/-- Python `s.split("\n")`: split on newline, keeping empty fragments. -/
def splitNl (cs : List Char) : List (List Char) :=
  match cs with
  | [] => [[]]
  | c :: rest =>
    let tailSplit := splitNl rest
    if c = '\n' then [] :: tailSplit
    else
      match tailSplit with
      | [] => [[c]]
      | f :: fs => (c :: f) :: fs

/-- Little-endian 32-bit read `struct.unpack("<I", buf[off:off+4])`
(reads out of range yield byte 0; the decoder only reads in range). -/
def u32le (buf : List Nat) (off : Nat) : Nat :=
  buf.getD off 0 + 256 * buf.getD (off + 1) 0 +
  65536 * buf.getD (off + 2) 0 + 16777216 * buf.getD (off + 3) 0

/-- Python slice `buf[a:b]`. -/
def listSlice (buf : List Nat) (a b : Nat) : List Nat := (buf.take b).drop a

/-- The record loop `_iter_records` of the source, from a given offset:
read a 4-byte little-endian header word, take the tag from the low 10
bits (`hdr & 0x3FF`) and the declared size from `(hdr >> 20) & 0xFFF`;
when the declared size is the escape value `0xFFF` read one more 4-byte
little-endian word as the true size; clamp a payload that overruns the
buffer and stop after it. -/
def iterRecordsFrom (buf : List Nat) (off : Nat) : List (Nat × List Nat) :=
  if h4 : off + 4 ≤ buf.length then
    let hdr := u32le buf off
    let tag := hdr &&& 0x3FF
    let size0 := (hdr >>> 20) &&& 0xFFF
    if size0 = 0xFFF then
      if h8 : off + 8 ≤ buf.length then
        let size := u32le buf (off + 4)
        if hov : buf.length < off + 8 + size then
          [(tag, listSlice buf (off + 8) buf.length)]
        else
          (tag, listSlice buf (off + 8) (off + 8 + size)) ::
            iterRecordsFrom buf (off + 8 + size)
      else []
    else
      if hov : buf.length < off + 4 + size0 then
        [(tag, listSlice buf (off + 4) buf.length)]
      else
        (tag, listSlice buf (off + 4) (off + 4 + size0)) ::
          iterRecordsFrom buf (off + 4 + size0)
  else []
termination_by buf.length - off
decreasing_by
  · omega
  · omega

/-- `_iter_records(buf)` from the start of the buffer. -/
def iterRecords (buf : List Nat) : List (Nat × List Nat) := iterRecordsFrom buf 0

/-- Decode modelled on the claim text of the record header: tag from the
low 10 bits, declared size from bits 10 through 21 (`(hdr >> 10) & 0xFFF`),
with the same escape, clamping and stopping behaviour as the source loop. -/
def iterRecordsBits10From (buf : List Nat) (off : Nat) : List (Nat × List Nat) :=
  if h4 : off + 4 ≤ buf.length then
    let hdr := u32le buf off
    let tag := hdr &&& 0x3FF
    let size0 := (hdr >>> 10) &&& 0xFFF
    if size0 = 0xFFF then
      if h8 : off + 8 ≤ buf.length then
        let size := u32le buf (off + 4)
        if hov : buf.length < off + 8 + size then
          [(tag, listSlice buf (off + 8) buf.length)]
        else
          (tag, listSlice buf (off + 8) (off + 8 + size)) ::
            iterRecordsBits10From buf (off + 8 + size)
      else []
    else
      if hov : buf.length < off + 4 + size0 then
        [(tag, listSlice buf (off + 4) buf.length)]
      else
        (tag, listSlice buf (off + 4) (off + 4 + size0)) ::
          iterRecordsBits10From buf (off + 4 + size0)
  else []
termination_by buf.length - off
decreasing_by
  · omega
  · omega

/-- Claim model of the whole-buffer decode with the size taken from
bits 10 through 21 of the header word. -/
def iterRecordsBits10 (buf : List Nat) : List (Nat × List Nat) :=
  iterRecordsBits10From buf 0

/-- Arithmetic restatement of the header decode: the tag id is the
residue of the header word modulo `2 ^ 10` and the declared size is the
number formed by bits 20 through 31, i.e. `hdr / 2 ^ 20 % 2 ^ 12`. -/
def iterRecordsArithFrom (buf : List Nat) (off : Nat) : List (Nat × List Nat) :=
  if h4 : off + 4 ≤ buf.length then
    let hdr := u32le buf off
    let tag := hdr % 2 ^ 10
    let size0 := hdr / 2 ^ 20 % 2 ^ 12
    if size0 = 4095 then
      if h8 : off + 8 ≤ buf.length then
        let size := u32le buf (off + 4)
        if hov : buf.length < off + 8 + size then
          [(tag, listSlice buf (off + 8) buf.length)]
        else
          (tag, listSlice buf (off + 8) (off + 8 + size)) ::
            iterRecordsArithFrom buf (off + 8 + size)
      else []
    else
      if hov : buf.length < off + 4 + size0 then
        [(tag, listSlice buf (off + 4) buf.length)]
      else
        (tag, listSlice buf (off + 4) (off + 4 + size0)) ::
          iterRecordsArithFrom buf (off + 4 + size0)
  else []
termination_by buf.length - off
decreasing_by
  · omega
  · omega

/-- Decoder state machine for `payload.decode("utf-16le",
errors="ignore")`: read 2-byte little-endian code units, keep a pending
high surrogate to pair with a following low surrogate, and silently
drop lone surrogates and an odd trailing byte. -/
def utf16leDecodeAux : Option Nat → List Nat → List Char
  | _, [] => []
  | _, [_] => []
  | pending, b0 :: b1 :: rest =>
    let u := b0 % 256 + 256 * (b1 % 256)
    match pending with
    | some hi =>
      if 56320 ≤ u ∧ u ≤ 57343 then
        Char.ofNat (65536 + (hi - 55296) * 1024 + (u - 56320)) ::
          utf16leDecodeAux none rest
      else if 55296 ≤ u ∧ u ≤ 56319 then utf16leDecodeAux (some u) rest
      else Char.ofNat u :: utf16leDecodeAux none rest
    | none =>
      if 55296 ≤ u ∧ u ≤ 56319 then utf16leDecodeAux (some u) rest
      else if 56320 ≤ u ∧ u ≤ 57343 then utf16leDecodeAux none rest
      else Char.ofNat u :: utf16leDecodeAux none rest

/-- Decode `payload.decode("utf-16le", errors="ignore")`. -/
def utf16leDecode (bs : List Nat) : List Char := utf16leDecodeAux none bs

/-- The per-character cleaning of a paragraph-text fragment:
`ch if (ch >= " " or ch in "\t") else " "`. -/
def ctrlToSpace (c : Char) : Char :=
  if 32 ≤ c.toNat ∨ c = '\t' then c else ' '

/-- Lines contributed by one tag-66 paragraph-text payload: decode as
UTF-16LE, turn carriage returns into newlines, split on newlines, clean
control characters, strip, and keep the non-empty fragments. -/
def paraTextLines (payload : List Nat) : List (List Char) :=
  let s := utf16leDecode payload
  let s := s.map fun c => if c = '\r' then '\n' else c
  (splitNl s).filterMap fun ln =>
    let cleaned := pyStrip (ln.map ctrlToSpace)
    if cleaned.isEmpty then none else some cleaned

/-- Lines extracted from one decompressed body stream: every record with
tag 66 contributes its paragraph-text lines, in record order. -/
def recordLines (data : List Nat) : List (List Char) :=
  (iterRecords data).flatMap fun r =>
    if r.1 = 66 then paraTextLines r.2 else []

/-- Python string comparison `a <= b`: lexicographic by code point. -/
def lexLe : List Char → List Char → Bool
  | [], _ => true
  | _ :: _, [] => false
  | a :: as, b :: bs =>
    if a.toNat < b.toNat then true
    else if b.toNat < a.toNat then false
    else lexLe as bs

/-- Python `s.endswith(suf)`. -/
def endsWithL (suf s : List Char) : Bool := suf.reverse.isPrefixOf s.reverse

/-- Model of the OLE compound container: the directory entries, each a
stream path (list of storage/stream names) with the stream's bytes. -/
structure Ole where
  dir : List (List (List Char) × List Nat)

/-- Stream lookup, `ole.openstream(path)`. -/
def Ole.stream (ole : Ole) (path : List (List Char)) : Option (List Nat) :=
  (ole.dir.find? fun e => e.1 == path).map (·.2)

/-- Errors of the Format A extraction path. -/
inductive HwpError where
  | missingStream
  | malformedHeader
  | encryptedDocument
deriving DecidableEq, Repr

/-- Parsed fixed-layout file header. -/
structure FileHeaderInfo where
  compressed : Bool
  encrypted : Bool
  ver : Nat
deriving DecidableEq, Repr

/-- `_read_fileheader`: read the `FileHeader` stream, require at least
48 bytes, and take the version word at offset 32 and the attribute word
at offset 36 whose bit 0 is the compression flag and bit 1 the
encryption flag. -/
def readFileheader (ole : Ole) : Except HwpError FileHeaderInfo :=
  match ole.stream ["FileHeader".data] with
  | none => .error .missingStream
  | some raw =>
    if raw.length < 48 then .error .malformedHeader
    else
      let ver := u32le raw 32
      let attr1 := u32le raw 36
      .ok { compressed := attr1 &&& 1 ≠ 0, encrypted := attr1 &&& 2 ≠ 0, ver := ver }

/-- `_zlib_if_needed`: when the compression flag is set try the external
inflater and silently fall back to the raw bytes on failure.  The zlib
inflater itself is outside the repository and enters as a parameter. -/
def zlibIfNeeded (inflate : List Nat → Option (List Nat)) (raw : List Nat)
    (expect : Bool) : List Nat :=
  if expect then (inflate raw).getD raw else raw

/-- The sort key of a body stream entry:
`int("".join(ch for ch in e[1] if ch.isdigit()) or "0")`. -/
def entryKey (path : List (List Char)) : Nat :=
  ((path.getD 1 []).filter Char.isDigit).foldl
    (fun a c => 10 * a + (c.toNat - 48)) 0

/-- Whether a directory entry is a body-text stream:
`len(e)==2 and e[0]=="BodyText" and e[1].startswith("Section")`. -/
def isBodyEntry (path : List (List Char)) : Bool :=
  match path with
  | [a, b] => a == "BodyText".data && "Section".data.isPrefixOf b
  | _ => false

/-- The body-text directory entries with their data, in processing
order: filtered as in the source and sorted ascending by the numeric
key extracted from the stream name (Python `list.sort` is a stable
ascending sort, modelled by the stable ascending `List.insertionSort`). -/
def bodyEntries (ole : Ole) : List (List (List Char) × List Nat) :=
  (ole.dir.filter fun e => isBodyEntry e.1).insertionSort
    fun a b => entryKey a.1 ≤ entryKey b.1

/-- `extract_hwp_lines`: read the file header, fail on the encryption
bit, then decode every body stream in sorted order, inflating when the
compression flag is set. -/
def extract_hwp_lines (ole : Ole) (inflate : List Nat → Option (List Nat)) :
    Except HwpError (List (List Char)) :=
  match readFileheader ole with
  | .error e => .error e
  | .ok hdr =>
    if hdr.encrypted then .error .encryptedDocument
    else
      .ok ((bodyEntries ole).flatMap fun e =>
        recordLines (zlibIfNeeded inflate e.2 hdr.compressed))

/-- An XML element as `xml.etree.ElementTree` presents it: qualified tag
name, leading text, ordered children, and trailing (tail) text.  Empty
strings model the falsy `None` texts. -/
inductive Elem where
  | mk (tag : List Char) (text : List Char) (children : List Elem) (tail : List Char)

mutual

/-- Size of an element, for traversal measures. -/
def elemSize : Elem → Nat
  | .mk _ _ cs _ => 1 + elemSizeList cs

/-- Total size of a list of elements. -/
def elemSizeList : List Elem → Nat
  | [] => 0
  | e :: es => elemSize e + elemSizeList es

end

theorem elemSizeList_append (xs ys : List Elem) :
    elemSizeList (xs ++ ys) = elemSizeList xs + elemSizeList ys := by
  induction xs with
  | nil => simp [elemSizeList]
  | cons e es ih => simp [elemSizeList, ih]; omega

/-- `_lname`: strip a `\x7bnamespace\x7d` front, keeping the text after
the last closing brace. -/
def lname (tag : List Char) : List Char :=
  if tag.contains (Char.ofNat 125) then
    (tag.reverse.takeWhile fun c => c != Char.ofNat 125).reverse
  else tag

/-- Tag names treated as paragraph/block boundaries (`_PARA_END`). -/
def PARA_END_TAGS : List (List Char) :=
  ["p".data, "para".data, "paragraph".data, "line".data, "li".data,
   "item".data, "title".data, "subtitle".data, "caption".data]

/-- Tag names treated as explicit line breaks (`_BR`). -/
def BR_TAGS : List (List Char) := ["br".data, "linebreak".data]

/-- Tag names treated as table-structural boundaries (`_TABLE_BREAK`). -/
def TABLE_BREAK_TAGS : List (List Char) :=
  ["tbl".data, "table".data, "tr".data, "row".data, "tc".data,
   "cell".data, "th".data, "thead".data, "tbody".data, "tfoot".data]

/-- One step of `re.sub(r"[ \t ]{2,}", " ", line)`: a character in
the class starting a run of two or more is replaced, with the whole run,
by a single plain space; a lone class character stays as it is. -/
def nbspSpace (c : Char) : Bool := c == ' ' || c == '\t' || c.toNat == 160

theorem dropWhile_len_le (p : Char → Bool) (l : List Char) :
    (l.dropWhile p).length ≤ l.length := by
  induction l with
  | nil => simp [List.dropWhile]
  | cons c cs ih =>
    simp only [List.dropWhile]
    cases p c
    · simp
    · simp
      omega

/-- Collapse runs of two or more spaces/tabs/no-break spaces into one
plain space. -/
def collapseSpaces : List Char → List Char
  | [] => []
  | c :: cs =>
    if nbspSpace c then
      match cs with
      | c2 :: rest =>
        if nbspSpace c2 then ' ' :: collapseSpaces (rest.dropWhile nbspSpace)
        else c :: collapseSpaces (c2 :: rest)
      | [] => [c]
    else c :: collapseSpaces cs
termination_by cs => cs.length
decreasing_by
  all_goals simp only [List.length_cons]
  · have := dropWhile_len_le nbspSpace rest
    omega
  · omega
  · omega

/-- The `flush()` closure: join the buffer, collapse space runs, strip,
append the line when non-empty, and clear the buffer. -/
def doFlush (st : List (List Char) × List (List Char)) :
    List (List Char) × List (List Char) :=
  let line := pyStrip (collapseSpaces st.1.flatten)
  ([], if line.isEmpty then st.2 else st.2 ++ [line])

/-- The explicit-stack depth-first loop of `extract_hwpx_lines`: pop a
node, append its text, flush on break and table tags, push the children
(so they are visited next, in order), append the tail, and flush on
paragraph tags — the tail append and the paragraph flush happen in the
same iteration, before any child is popped. -/
def hwpxWalk : List Elem → List (List Char) × List (List Char) →
    List (List Char) × List (List Char)
  | [], st => st
  | .mk tg tx cs tl :: rest, st =>
    let buf := if tx.isEmpty then st.1 else st.1 ++ [tx]
    let ln := (lname tg).map Char.toLower
    let st1 := if BR_TAGS.contains ln then doFlush (buf, st.2) else (buf, st.2)
    let st2 := if TABLE_BREAK_TAGS.contains ln then doFlush st1 else st1
    let buf2 := if tl.isEmpty then st2.1 else st2.1 ++ [tl]
    let st3 := if PARA_END_TAGS.contains ln then doFlush (buf2, st2.2) else (buf2, st2.2)
    hwpxWalk (cs ++ rest) st3
termination_by stack _ => elemSizeList stack
decreasing_by
  simp only [elemSizeList, elemSize, elemSizeList_append]
  omega

/-- Lines of one parsed section tree: run the stack walk from the root
with an empty buffer, then perform the final flush. -/
def sectionLines (root : Elem) : List (List Char) :=
  (doFlush (hwpxWalk [root] ([], []))).2

theorem elemSize_pos (e : Elem) : 0 < elemSize e := by
  cases e with
  | mk tg tx cs tl => simp [elemSize]

mutual

/-- Document-order recursive traversal as the claim describes it:
text on entry, break/table flushes on entry, then the children, then
the tail, and only then the paragraph-boundary flush. -/
def specVisit : Elem → List (List Char) × List (List Char) →
    List (List Char) × List (List Char)
  | .mk tg tx cs tl, st =>
    let buf := if tx.isEmpty then st.1 else st.1 ++ [tx]
    let ln := (lname tg).map Char.toLower
    let st1 := if BR_TAGS.contains ln then doFlush (buf, st.2) else (buf, st.2)
    let st2 := if TABLE_BREAK_TAGS.contains ln then doFlush st1 else st1
    let st3 := specVisitList cs st2
    let buf2 := if tl.isEmpty then st3.1 else st3.1 ++ [tl]
    if PARA_END_TAGS.contains ln then doFlush (buf2, st3.2) else (buf2, st3.2)
termination_by e _ => 2 * elemSize e
decreasing_by
  simp only [elemSize, elemSizeList]
  omega

/-- Visit a list of children in order. -/
def specVisitList : List Elem → List (List Char) × List (List Char) →
    List (List Char) × List (List Char)
  | [], st => st
  | e :: es, st => specVisitList es (specVisit e st)
termination_by es _ => 2 * elemSizeList es + 1
decreasing_by
  all_goals simp only [elemSize, elemSizeList]
  all_goals have := elemSize_pos e
  all_goals omega

end

/-- Lines of one section under the document-order traversal of the
claim, with the final flush. -/
def specSectionLines (root : Elem) : List (List Char) :=
  (doFlush (specVisit root ([], []))).2

/-- Whether an archive part name matches the fixed content path:
`n.startswith("Contents/section") and n.endswith(".xml")`. -/
def isSectionName (n : List Char) : Bool :=
  "Contents/section".data.isPrefixOf n && endsWithL ".xml".data n

/-- Whether a part name is any XML part: `n.lower().endswith(".xml")`. -/
def isXmlName (n : List Char) : Bool :=
  endsWithL ".xml".data (n.map Char.toLower)

/-- Section part selection of `extract_hwpx_lines`: the names under the
fixed content path, `sorted` lexicographically (Python `sorted`, a
stable ascending sort); when none match, every `.xml` name
(case-insensitively), `sorted` lexicographically. -/
def hwpxSections (names : List (List Char)) : List (List Char) :=
  if ((names.filter isSectionName).insertionSort fun a b => lexLe a b = true).isEmpty then
    (names.filter isXmlName).insertionSort fun a b => lexLe a b = true
  else (names.filter isSectionName).insertionSort fun a b => lexLe a b = true

/-- Claim model of the section ordering: the same matching names sorted
ascending by the number formed from the digit characters of the name. -/
def hwpxSectionsNumeric (names : List (List Char)) : List (List Char) :=
  let key : List Char → Nat := fun n =>
    (n.filter Char.isDigit).foldl (fun a c => 10 * a + (c.toNat - 48)) 0
  let ss := (names.filter isSectionName).insertionSort fun a b => key a ≤ key b
  if ss.isEmpty then
    (names.filter isXmlName).insertionSort fun a b => lexLe a b = true
  else ss

/-- `extract_hwpx_lines` over a model of the ZIP archive: each part is a
name together with its parse result (`none` when `ET.fromstring` fails,
which the source skips). -/
def extract_hwpx_lines (arc : List (List Char × Option Elem)) : List (List Char) :=
  (hwpxSections (arc.map (·.1))).flatMap fun n =>
    match arc.find? fun e => e.1 == n with
    | some (_, some root) => sectionLines root
    | _ => []

/-- Python `s.rfind(pat, 0, stop)` on code points: the greatest index at
which `pat` occurs entirely inside `s[0:stop]`, or `-1`. -/
def strRfind (cs pat : List Char) (stop : Nat) : Int :=
  match ((List.range (min stop cs.length + 1)).filter fun i =>
      decide (i + pat.length ≤ min stop cs.length) &&
        pat.isPrefixOf (cs.drop i)).getLast? with
  | some i => (i : Int)
  | none => -1

/-- The punctuation-plus-space delimiters tried by `hard_wrap_lines`,
in source order. -/
def HW_DELIMS : List (List Char) :=
  [". ".data, ") ".data, "] ".data, "· ".data, "• ".data, ", ".data]

/-- The delimiter loop of `hard_wrap_lines`: try each delimiter in
order; the first whose last occurrence is at a positive position sets
the cut just after the punctuation character; otherwise keep the
incoming cut value. -/
def punctLoop (s : List Char) (w : Nat) : List (List Char) → Int → Int
  | [], cut => cut
  | p :: ps, cut =>
    let pos := strRfind s p w
    if 0 < pos then pos + (p.length : Int) - 1 else punctLoop s w ps cut

/-- The cut computation of one `while` iteration of `hard_wrap_lines`:
last space before the width, the delimiter fallback when that space is
missing or before 60% of the width (the Python float test
`cut < width * 0.6` is the exact comparison `10 * cut < 6 * width`),
and the hard cut at the width when the result is not positive. -/
def cutPos (s : List Char) (w : Nat) : Nat :=
  if (if 10 * strRfind s [' '] w < 6 * (w : Int) then
        punctLoop s w HW_DELIMS (strRfind s [' '] w)
      else strRfind s [' '] w) ≤ 0 then w
  else (if 10 * strRfind s [' '] w < 6 * (w : Int) then
        punctLoop s w HW_DELIMS (strRfind s [' '] w)
      else strRfind s [' '] w).toNat

theorem strRfind_le (cs pat : List Char) (stop : Nat) :
    strRfind cs pat stop + (pat.length : Int) ≤ min stop cs.length ∨
    strRfind cs pat stop = -1 := by
  unfold strRfind
  split
  next i hL =>
    left
    have hmem := List.mem_of_mem_getLast? hL
    have hfilt := List.of_mem_filter hmem
    simp only [Bool.and_eq_true, decide_eq_true_eq] at hfilt
    omega
  next hL =>
    right
    rfl

theorem cutPos_pos (s : List Char) (w : Nat) (hw : 0 < w) : 0 < cutPos s w := by
  unfold cutPos
  set c : Int := if 10 * strRfind s [' '] w < 6 * (w : Int) then
    punctLoop s w HW_DELIMS (strRfind s [' '] w) else strRfind s [' '] w with hc
  by_cases h : c ≤ 0
  · simp [h, hw]
  · simp [h]
    omega

theorem punctLoop_le (s : List Char) (w : Nat) (cut0 : Int) (ps : List (List Char))
    (hcut : cut0 ≤ (w : Int) - 1) (hps : ∀ p ∈ ps, p.length = 2) :
    punctLoop s w ps cut0 ≤ (w : Int) - 1 := by
  induction ps with
  | nil => simpa [punctLoop]
  | cons p ps ih =>
    simp only [punctLoop]
    have hp : p.length = 2 := hps p (by simp)
    by_cases hpos : 0 < strRfind s p w
    · simp only [hpos, if_pos]
      rcases strRfind_le s p w with h | h
      · rw [hp] at h
        have : min w s.length ≤ (w : Int) := by simp
        omega
      · omega
    · simp only [hpos, if_neg, not_false_iff]
      exact ih (fun q hq => hps q (by simp [hq]))

theorem cutPos_le (s : List Char) (w : Nat) : cutPos s w ≤ w := by
  unfold cutPos
  have hsp : strRfind s [' '] w ≤ (w : Int) - 1 := by
    rcases strRfind_le s [' '] w with h | h
    · simp at h
      have : min w s.length ≤ (w : Int) := by simp
      omega
    · omega
  set c : Int := if 10 * strRfind s [' '] w < 6 * (w : Int) then
    punctLoop s w HW_DELIMS (strRfind s [' '] w) else strRfind s [' '] w with hc
  have hcle : c ≤ (w : Int) - 1 := by
    rw [hc]
    split
    · exact punctLoop_le s w _ HW_DELIMS hsp (by decide)
    · exact hsp
  by_cases h : c ≤ 0
  · simp [h]
  · simp [h]
    omega

/-- One input line of the wrapping loop: while the line is longer than
the (positive) width, cut at `cutPos`, emit the right-stripped front,
and continue on the left-stripped rest; a non-empty final rest is
emitted as the last piece. -/
def wrapLine (w : Nat) (hw : 0 < w) (s : List Char) : List (List Char) :=
  if _h : w < s.length then
    let c := cutPos s w
    pyRstrip (s.take c) :: wrapLine w hw (pyLstrip (s.drop c))
  else if s.isEmpty then [] else [s]
termination_by s.length
decreasing_by
  have h1 : 0 < cutPos s w := cutPos_pos s w hw
  have h2 : cutPos s w ≤ w := cutPos_le s w
  have h3 := dropWhile_len_le pySpace (s.drop (cutPos s w))
  simp only [pyLstrip] at h3 ⊢
  have h4 : (s.drop (cutPos s w)).length = s.length - cutPos s w := by simp
  omega

/-- `hard_wrap_lines`: the identity for non-positive widths, otherwise
each line is wrapped independently and the pieces concatenated in
order. -/
def hard_wrap_lines (lines : List (List Char)) (width : Int) : List (List Char) :=
  if h : width ≤ 0 then lines
  else lines.flatMap (wrapLine width.toNat (by omega))

theorem dropWhile_head?_false (p : Char → Bool) (l : List Char) (c : Char)
    (h : (l.dropWhile p).head? = some c) : p c = false := by
  induction l with
  | nil => simp [List.dropWhile] at h
  | cons a as ih =>
    simp only [List.dropWhile] at h
    cases hp : p a with
    | true => rw [hp] at h; exact ih h
    | false =>
      rw [hp] at h
      simp at h
      rw [← h]
      exact hp

theorem pyLstrip_head?_false (l : List Char) (c : Char)
    (h : (pyLstrip l).head? = some c) : pySpace c = false :=
  dropWhile_head?_false pySpace l c h

theorem pyRstrip_isPre (l : List Char) : pyRstrip l <+: l := by
  rw [← List.reverse_suffix]
  unfold pyRstrip
  rw [List.reverse_reverse]
  exact List.dropWhile_suffix pySpace

theorem head?_of_pre {l1 l2 : List Char} (h : l1 <+: l2) (c : Char)
    (hc : l1.head? = some c) : l2.head? = some c := by
  obtain ⟨t, rfl⟩ := h
  rw [List.head?_append, hc]
  rfl

theorem pyRstrip_head?_some (l : List Char) (c : Char)
    (h : (pyRstrip l).head? = some c) : l.head? = some c :=
  head?_of_pre (pyRstrip_isPre l) c h

theorem pyStrip_head?_false (l : List Char) (c : Char)
    (h : (pyStrip l).head? = some c) : pySpace c = false :=
  pyLstrip_head?_false l c (pyRstrip_head?_some (pyLstrip l) c h)

theorem pyRstrip_length_le (l : List Char) : (pyRstrip l).length ≤ l.length :=
  (pyRstrip_isPre l).length_le

theorem pyRstrip_ne_nil (l : List Char) (c : Char) (hc : l.head? = some c)
    (hs : pySpace c = false) : pyRstrip l ≠ [] := by
  intro hnil
  unfold pyRstrip at hnil
  have hdw : l.reverse.dropWhile pySpace = [] := by
    cases hrv : l.reverse.dropWhile pySpace with
    | nil => rfl
    | cons a as => rw [hrv] at hnil; simp at hnil
  rw [List.dropWhile_eq_nil_iff] at hdw
  cases l with
  | nil => simp at hc
  | cons a as =>
    simp at hc
    have : pySpace a = true := hdw a (by simp)
    rw [← hc] at hs
    rw [this] at hs
    exact Bool.true_eq_false.mp hs

theorem head?_take_pos (s : List Char) (c : Nat) (hc : 0 < c) :
    (s.take c).head? = s.head? := by
  cases s with
  | nil => simp
  | cons a as =>
    cases c with
    | zero => omega
    | succ k => simp

/-- A line is "well-led" when it does not begin with a whitespace
character (every stripped non-empty line is). -/
def goodHead (l : List Char) : Bool := l.head?.all fun c => !pySpace c

theorem goodHead_pyLstrip (l : List Char) : goodHead (pyLstrip l) = true := by
  unfold goodHead
  cases hh : (pyLstrip l).head? with
  | none => rfl
  | some c =>
    have hf := pyLstrip_head?_false l c hh
    simp [Option.all, hf]

theorem goodHead_pyStrip (l : List Char) : goodHead (pyStrip l) = true := by
  unfold goodHead
  cases hh : (pyStrip l).head? with
  | none => rfl
  | some c =>
    have hf := pyStrip_head?_false l c hh
    simp [Option.all, hf]

theorem wrapLine_eq_pos (w : Nat) (hw : 0 < w) (s : List Char) (h : w < s.length) :
    wrapLine w hw s =
      pyRstrip (s.take (cutPos s w)) ::
        wrapLine w hw (pyLstrip (s.drop (cutPos s w))) := by
  conv_lhs => unfold wrapLine
  rw [dif_pos h]

theorem wrapLine_eq_short (w : Nat) (hw : 0 < w) (s : List Char) (h : ¬ w < s.length) :
    wrapLine w hw s = if s.isEmpty then [] else [s] := by
  unfold wrapLine
  rw [dif_neg h]

theorem wrapLine_good_aux (w : Nat) (hw : 0 < w) :
    ∀ n (s : List Char), s.length ≤ n → goodHead s = true →
      ∀ l ∈ wrapLine w hw s, l ≠ [] ∧ l.length ≤ w := by
  intro n
  induction n with
  | zero =>
    intro s hsn hh l hl
    have hs : s = [] := by
      cases s with
      | nil => rfl
      | cons a as => simp at hsn
    subst hs
    rw [wrapLine_eq_short w hw [] (by simp)] at hl
    simp at hl
  | succ n ihn =>
    intro s hsn hh l hl
    by_cases hlt : w < s.length
    · rw [wrapLine_eq_pos w hw s hlt] at hl
      rcases List.mem_cons.mp hl with hfront | hrec
      · subst hfront
        have hxne : s ≠ [] := by
          intro hx
          rw [hx] at hlt
          simp at hlt
        constructor
        · cases hx : s.head? with
          | none =>
            cases s with
            | nil => exact absurd rfl hxne
            | cons a as => simp at hx
          | some c0 =>
            have hcf : pySpace c0 = false := by
              unfold goodHead at hh
              rw [hx] at hh
              simp [Option.all] at hh
              simpa using hh
            have htake : (s.take (cutPos s w)).head? = some c0 := by
              rw [head?_take_pos s (cutPos s w) (cutPos_pos s w hw)]
              exact hx
            exact pyRstrip_ne_nil _ c0 htake hcf
        · have h1 := pyRstrip_length_le (s.take (cutPos s w))
          have h2 := List.length_take (cutPos s w) s
          have h3 := cutPos_le s w
          omega
      · refine ihn (pyLstrip (s.drop (cutPos s w))) ?_ (goodHead_pyLstrip _) l hrec
        have h1 := cutPos_pos s w hw
        have h2 := dropWhile_len_le pySpace (s.drop (cutPos s w))
        have h3 : (s.drop (cutPos s w)).length = s.length - cutPos s w := by simp
        simp only [pyLstrip]
        omega
    · rw [wrapLine_eq_short w hw s hlt] at hl
      by_cases hemp : s.isEmpty
      · rw [if_pos hemp] at hl
        simp at hl
      · rw [if_neg hemp] at hl
        simp at hl
        subst hl
        constructor
        · intro hx
          rw [hx] at hemp
          simp at hemp
        · omega

theorem wrapLine_good (w : Nat) (hw : 0 < w) (s : List Char)
    (hh : goodHead s = true) : ∀ l ∈ wrapLine w hw s, l ≠ [] ∧ l.length ≤ w :=
  wrapLine_good_aux w hw s.length s le_rfl hh

theorem flatMap_wrap_fixed (w : Nat) (hw : 0 < w) (L : List (List Char))
    (h : ∀ t ∈ L, wrapLine w hw t = [t]) : L.flatMap (wrapLine w hw) = L := by
  induction L with
  | nil => rfl
  | cons t ts ih =>
    rw [List.flatMap_cons, h t (by simp)]
    rw [ih fun x hx => h x (by simp [hx])]
    rfl

/-- Arithmetic-restatement decode of a whole buffer. -/
def iterRecordsArith (buf : List Nat) : List (Nat × List Nat) :=
  iterRecordsArithFrom buf 0

/-- The best (right-most) position at which any of the fixed delimiters
occurs before the width, `-1` when none occurs: the cut the claim
prescribes scans backward over all delimiters together. -/
def delimsBest (s : List Char) (w : Nat) : Int :=
  (HW_DELIMS.map fun p => strRfind s p w).foldl max (-1)

/-- Claim model of the cut choice: break at the last space when it is
at or past 60% of the width; otherwise break immediately after the last
occurrence of any delimiter of the fixed set; otherwise exactly at the
width. -/
def claimCutPos (s : List Char) (w : Nat) : Nat :=
  if 0 ≤ strRfind s [' '] w ∧ 6 * (w : Int) ≤ 10 * strRfind s [' '] w then
    (strRfind s [' '] w).toNat
  else if 0 ≤ delimsBest s w then (delimsBest s w + 2).toNat else w

theorem foldl_max_mem : ∀ (l : List Int) (a : Int), l.foldl max a = a ∨ l.foldl max a ∈ l := by
  intro l
  induction l with
  | nil =>
    intro a
    left
    rfl
  | cons x xs ih =>
    intro a
    simp only [List.foldl]
    rcases ih (max a x) with h | h
    · rw [h]
      rcases max_cases a x with ⟨he, _⟩ | ⟨he, _⟩
      · left
        exact he
      · right
        rw [he]
        simp
    · right
      simp [h]

theorem delimsBest_cases (s : List Char) (w : Nat) :
    delimsBest s w = -1 ∨ delimsBest s w + 2 ≤ min w s.length := by
  unfold delimsBest
  rcases foldl_max_mem (HW_DELIMS.map fun p => strRfind s p w) (-1) with h | h
  · left
    exact h
  · rw [List.mem_map] at h
    obtain ⟨p, hp, he⟩ := h
    have hlen : p.length = 2 := by
      simp [HW_DELIMS] at hp
      rcases hp with rfl | rfl | rfl | rfl | rfl | rfl <;> rfl
    rcases strRfind_le s p w with hb | hb
    · right
      rw [← he]
      rw [hlen] at hb
      omega
    · left
      rw [← he, hb]

theorem claimCutPos_pos (s : List Char) (w : Nat) (hw : 0 < w) :
    0 < claimCutPos s w := by
  unfold claimCutPos
  split
  next h => omega
  next h =>
    split
    next h2 => omega
    next h2 => exact hw

theorem claimCutPos_le (s : List Char) (w : Nat) : claimCutPos s w ≤ w := by
  unfold claimCutPos
  have hsp : strRfind s [' '] w + 1 ≤ min w s.length ∨ strRfind s [' '] w = -1 := by
    rcases strRfind_le s [' '] w with h | h
    · left
      simpa using h
    · right
      exact h
  split
  next h =>
    rcases hsp with hb | hb <;> omega
  next h =>
    split
    next h2 =>
      rcases delimsBest_cases s w with hb | hb <;> omega
    next h2 => omega

/-- One line wrapped as the claim prescribes. -/
def claimWrapLine (w : Nat) (hw : 0 < w) (s : List Char) : List (List Char) :=
  if _h : w < s.length then
    let c := claimCutPos s w
    pyRstrip (s.take c) :: claimWrapLine w hw (pyLstrip (s.drop c))
  else if s.isEmpty then [] else [s]
termination_by s.length
decreasing_by
  have h1 : 0 < claimCutPos s w := claimCutPos_pos s w hw
  have h2 : claimCutPos s w ≤ w := claimCutPos_le s w
  have h3 := dropWhile_len_le pySpace (s.drop (claimCutPos s w))
  simp only [pyLstrip] at h3 ⊢
  have h4 : (s.drop (claimCutPos s w)).length = s.length - claimCutPos s w := by simp
  omega

/-- The hard-wrap pass as the claim prescribes it. -/
def claimHardWrap (lines : List (List Char)) (width : Int) : List (List Char) :=
  if h : width ≤ 0 then lines
  else lines.flatMap (claimWrapLine width.toNat (by omega))

theorem paraTextLines_good (payload : List Nat) :
    ∀ l ∈ paraTextLines payload, l ≠ [] ∧ goodHead l = true := by
  intro l hl
  unfold paraTextLines at hl
  rw [List.mem_filterMap] at hl
  obtain ⟨a, _, hfa⟩ := hl
  simp only at hfa
  split at hfa
  · cases hfa
  next hne =>
    have hl' : pyStrip (a.map ctrlToSpace) = l := by
      injection hfa
    subst hl'
    refine ⟨?_, goodHead_pyStrip _⟩
    intro hnil
    rw [hnil] at hne
    simp at hne

theorem recordLines_good (data : List Nat) :
    ∀ l ∈ recordLines data, l ≠ [] ∧ goodHead l = true := by
  intro l hl
  unfold recordLines at hl
  rw [List.mem_flatMap] at hl
  obtain ⟨r, _, hr⟩ := hl
  split at hr
  · exact paraTextLines_good r.2 l hr
  · simp at hr

theorem extract_hwp_good (ole : Ole) (inflate : List Nat → Option (List Nat))
    (lines : List (List Char)) (h : extract_hwp_lines ole inflate = .ok lines) :
    ∀ l ∈ lines, l ≠ [] ∧ goodHead l = true := by
  unfold extract_hwp_lines at h
  split at h
  · simp at h
  · split at h
    · simp at h
    · simp only [Except.ok.injEq] at h
      subst h
      intro l hl
      rw [List.mem_flatMap] at hl
      obtain ⟨e, _, he⟩ := hl
      exact recordLines_good _ l he

theorem doFlush_good (st : List (List Char) × List (List Char))
    (h : ∀ l ∈ st.2, l ≠ [] ∧ goodHead l = true) :
    ∀ l ∈ (doFlush st).2, l ≠ [] ∧ goodHead l = true := by
  intro l hl
  unfold doFlush at hl
  simp only at hl
  split at hl
  · exact h l hl
  next hne =>
    rw [List.mem_append] at hl
    rcases hl with hold | hnew
    · exact h l hold
    · simp at hnew
      subst hnew
      refine ⟨?_, goodHead_pyStrip _⟩
      intro hnil
      rw [hnil] at hne
      simp at hne

theorem hwpxWalk_nil (st : List (List Char) × List (List Char)) :
    hwpxWalk [] st = st := by
  unfold hwpxWalk
  rfl

theorem hwpxWalk_cons (tg tx : List Char) (cs : List Elem) (tl : List Char)
    (rest : List Elem) (st : List (List Char) × List (List Char)) :
    hwpxWalk (Elem.mk tg tx cs tl :: rest) st =
      hwpxWalk (cs ++ rest)
        (let buf := if tx.isEmpty then st.1 else st.1 ++ [tx]
         let ln := (lname tg).map Char.toLower
         let st1 := if BR_TAGS.contains ln then doFlush (buf, st.2) else (buf, st.2)
         let st2 := if TABLE_BREAK_TAGS.contains ln then doFlush st1 else st1
         let buf2 := if tl.isEmpty then st2.1 else st2.1 ++ [tl]
         if PARA_END_TAGS.contains ln then doFlush (buf2, st2.2) else (buf2, st2.2)) := by
  conv_lhs => unfold hwpxWalk

theorem hwpxWalk_good_aux :
    ∀ (n : Nat) (stack : List Elem) (st : List (List Char) × List (List Char)),
      elemSizeList stack ≤ n →
      (∀ l ∈ st.2, l ≠ [] ∧ goodHead l = true) →
      ∀ l ∈ (hwpxWalk stack st).2, l ≠ [] ∧ goodHead l = true := by
  intro n
  induction n with
  | zero =>
    intro stack st hsz h
    cases stack with
    | nil =>
      rw [hwpxWalk_nil]
      exact h
    | cons e es =>
      exfalso
      have := elemSize_pos e
      simp only [elemSizeList] at hsz
      omega
  | succ n ihn =>
    intro stack st hsz h
    cases stack with
    | nil =>
      rw [hwpxWalk_nil]
      exact h
    | cons e es =>
      cases e with
      | mk tg tx cs tl =>
        rw [hwpxWalk_cons]
        have hsz' : elemSizeList (cs ++ es) ≤ n := by
          rw [elemSizeList_append]
          simp only [elemSizeList, elemSize] at hsz
          omega
        apply ihn (cs ++ es) _ hsz'
        simp only
        have h1 : ∀ l ∈ (if BR_TAGS.contains ((lname tg).map Char.toLower) then
            doFlush ((if tx.isEmpty then st.1 else st.1 ++ [tx]), st.2)
            else ((if tx.isEmpty then st.1 else st.1 ++ [tx]), st.2)).2,
            l ≠ [] ∧ goodHead l = true := by
          split
          · exact doFlush_good _ h
          · exact h
        have h2 : ∀ l ∈ (if TABLE_BREAK_TAGS.contains ((lname tg).map Char.toLower) then
            doFlush (if BR_TAGS.contains ((lname tg).map Char.toLower) then
              doFlush ((if tx.isEmpty then st.1 else st.1 ++ [tx]), st.2)
              else ((if tx.isEmpty then st.1 else st.1 ++ [tx]), st.2))
            else (if BR_TAGS.contains ((lname tg).map Char.toLower) then
              doFlush ((if tx.isEmpty then st.1 else st.1 ++ [tx]), st.2)
              else ((if tx.isEmpty then st.1 else st.1 ++ [tx]), st.2))).2,
            l ≠ [] ∧ goodHead l = true := by
          split
          · exact doFlush_good _ h1
          · exact h1
        split
        · exact doFlush_good _ h2
        · exact h2

theorem sectionLines_good (root : Elem) :
    ∀ l ∈ sectionLines root, l ≠ [] ∧ goodHead l = true := by
  unfold sectionLines
  apply doFlush_good
  apply hwpxWalk_good_aux (elemSizeList [root]) [root] ([], []) le_rfl
  intro l hl
  simp at hl

theorem extract_hwpx_good (arc : List (List Char × Option Elem)) :
    ∀ l ∈ extract_hwpx_lines arc, l ≠ [] ∧ goodHead l = true := by
  intro l hl
  unfold extract_hwpx_lines at hl
  rw [List.mem_flatMap] at hl
  obtain ⟨nm, _, hn⟩ := hl
  split at hn
  next e root heq =>
    exact sectionLines_good root l hn
  next =>
    simp at hn

theorem and_1023_eq_mod (x : Nat) : x &&& 1023 = x % 2 ^ 10 := by
  have h := Nat.and_pow_two_sub_one_eq_mod x 10
  norm_num at h
  norm_num
  exact h

theorem shift20_and_4095 (x : Nat) : (x >>> 20) &&& 4095 = x / 2 ^ 20 % 2 ^ 12 := by
  rw [Nat.shiftRight_eq_div_pow]
  have h := Nat.and_pow_two_sub_one_eq_mod (x / 2 ^ 20) 12
  norm_num at h
  norm_num
  exact h

theorem iterRecordsFrom_eq_arith (buf : List Nat) : ∀ (n off : Nat),
    buf.length - off ≤ n → iterRecordsFrom buf off = iterRecordsArithFrom buf off := by
  intro n
  induction n with
  | zero =>
    intro off hn
    have hc : ¬ (off + 4 ≤ buf.length) := by omega
    conv_lhs => unfold iterRecordsFrom
    conv_rhs => unfold iterRecordsArithFrom
    rw [dif_neg hc, dif_neg hc]
  | succ n ihn =>
    intro off hn
    by_cases h4 : off + 4 ≤ buf.length
    · conv_lhs => unfold iterRecordsFrom
      conv_rhs => unfold iterRecordsArithFrom
      rw [dif_pos h4, dif_pos h4]
      simp only [and_1023_eq_mod, shift20_and_4095]
      by_cases hesc : u32le buf off / 2 ^ 20 % 2 ^ 12 = 4095
      · rw [if_pos hesc, if_pos hesc]
        by_cases h8 : off + 8 ≤ buf.length
        · rw [dif_pos h8, dif_pos h8]
          by_cases hov : buf.length < off + 8 + u32le buf (off + 4)
          · rw [dif_pos hov, dif_pos hov]
          · rw [dif_neg hov, dif_neg hov]
            rw [ihn (off + 8 + u32le buf (off + 4)) (by omega)]
        · rw [dif_neg h8, dif_neg h8]
      · rw [if_neg hesc, if_neg hesc]
        by_cases hov : buf.length < off + 4 + u32le buf off / 2 ^ 20 % 2 ^ 12
        · rw [dif_pos hov, dif_pos hov]
        · rw [dif_neg hov, dif_neg hov]
          rw [ihn (off + 4 + u32le buf off / 2 ^ 20 % 2 ^ 12) (by omega)]
    · conv_lhs => unfold iterRecordsFrom
      conv_rhs => unfold iterRecordsArithFrom
      rw [dif_neg h4, dif_neg h4]

theorem iterRecordsFrom_len_aux (buf : List Nat) : ∀ (n off : Nat),
    buf.length - off ≤ n →
    4 * (iterRecordsFrom buf off).length ≤ buf.length - off := by
  intro n
  induction n with
  | zero =>
    intro off hn
    have hc : ¬ (off + 4 ≤ buf.length) := by omega
    conv_lhs => unfold iterRecordsFrom
    rw [dif_neg hc]
    simp
  | succ n ihn =>
    intro off hn
    by_cases h4 : off + 4 ≤ buf.length
    · conv_lhs => unfold iterRecordsFrom
      rw [dif_pos h4]
      by_cases hesc : (u32le buf off >>> 20) &&& 0xFFF = 0xFFF
      · rw [if_pos hesc]
        by_cases h8 : off + 8 ≤ buf.length
        · rw [dif_pos h8]
          by_cases hov : buf.length < off + 8 + u32le buf (off + 4)
          · rw [dif_pos hov]
            simp only [List.length_cons, List.length_nil]
            omega
          · rw [dif_neg hov]
            simp only [List.length_cons]
            have := ihn (off + 8 + u32le buf (off + 4)) (by omega)
            omega
        · rw [dif_neg h8]
          simp
      · rw [if_neg hesc]
        by_cases hov : buf.length < off + 4 + ((u32le buf off >>> 20) &&& 0xFFF)
        · rw [dif_pos hov]
          simp only [List.length_cons, List.length_nil]
          omega
        · rw [dif_neg hov]
          simp only [List.length_cons]
          have := ihn (off + 4 + ((u32le buf off >>> 20) &&& 0xFFF)) (by omega)
          omega
    · conv_lhs => unfold iterRecordsFrom
      rw [dif_neg h4]
      simp

theorem lexLe_total : ∀ a b : List Char, lexLe a b = true ∨ lexLe b a = true := by
  intro a
  induction a with
  | nil =>
    intro b
    left
    rfl
  | cons x xs ih =>
    intro b
    cases b with
    | nil =>
      right
      rfl
    | cons y ys =>
      by_cases h1 : x.toNat < y.toNat
      · left
        simp only [lexLe]
        rw [if_pos h1]
      · by_cases h2 : y.toNat < x.toNat
        · right
          simp only [lexLe]
          rw [if_pos h2]
        · rcases ih ys with h | h
          · left
            simp only [lexLe]
            rw [if_neg h1, if_neg h2]
            exact h
          · right
            simp only [lexLe]
            rw [if_neg h2, if_neg h1]
            exact h

theorem lexLe_trans : ∀ a b c : List Char,
    lexLe a b = true → lexLe b c = true → lexLe a c = true := by
  intro a
  induction a with
  | nil =>
    intro b c _ _
    rfl
  | cons x xs ih =>
    intro b c hab hbc
    cases b with
    | nil => simp [lexLe] at hab
    | cons y ys =>
      cases c with
      | nil => simp [lexLe] at hbc
      | cons z zs =>
        simp only [lexLe] at hab hbc ⊢
        split at hab
        · split at hbc
          · rw [if_pos (by omega)]
          · split at hbc
            · exact absurd hbc (by simp)
            · rw [if_pos (by omega)]
        · split at hab
          · exact absurd hab (by simp)
          · split at hbc
            · rw [if_pos (by omega)]
            · split at hbc
              · exact absurd hbc (by simp)
              · rw [if_neg (by omega), if_neg (by omega)]
                exact ih ys zs hab hbc

theorem bodyEntries_sorted (ole : Ole) :
    List.Sorted (fun a b => entryKey a.1 ≤ entryKey b.1) (bodyEntries ole) := by
  unfold bodyEntries
  haveI : IsTotal (List (List Char) × List Nat) (fun a b => entryKey a.1 ≤ entryKey b.1) :=
    ⟨fun a b => Nat.le_total _ _⟩
  haveI : IsTrans (List (List Char) × List Nat) (fun a b => entryKey a.1 ≤ entryKey b.1) :=
    ⟨fun _ _ _ => Nat.le_trans⟩
  exact List.sorted_insertionSort _ _

theorem bodyEntries_perm (ole : Ole) :
    (bodyEntries ole).Perm (ole.dir.filter fun e => isBodyEntry e.1) :=
  List.perm_insertionSort _ _

theorem hwpxSections_sorted (names : List (List Char)) :
    List.Sorted (fun a b => lexLe a b = true) (hwpxSections names) := by
  unfold hwpxSections
  haveI : IsTotal (List Char) (fun a b => lexLe a b = true) := ⟨lexLe_total⟩
  haveI : IsTrans (List Char) (fun a b => lexLe a b = true) := ⟨lexLe_trans⟩
  split
  · exact List.sorted_insertionSort _ _
  · exact List.sorted_insertionSort _ _

theorem insertionSort_isEmpty_eq {α : Type} (r : α → α → Prop) [DecidableRel r]
    (l : List α) : (List.insertionSort r l).isEmpty = l.isEmpty := by
  cases hF : l with
  | nil => rfl
  | cons a m =>
    have hlen := (List.perm_insertionSort r (a :: m)).length_eq
    cases hs : List.insertionSort r (a :: m) with
    | nil =>
      rw [hs] at hlen
      simp at hlen
    | cons b k => rfl

theorem hwpxSections_perm (names : List (List Char)) :
    (hwpxSections names).Perm
      (if (names.filter isSectionName).isEmpty then names.filter isXmlName
       else names.filter isSectionName) := by
  unfold hwpxSections
  have hemp := insertionSort_isEmpty_eq (fun a b => lexLe a b = true)
    (names.filter isSectionName)
  split
  next h =>
    rw [if_pos (hemp ▸ h)]
    exact List.perm_insertionSort _ _
  next h =>
    rw [if_neg fun hc => h (hemp.trans hc)]
    exact List.perm_insertionSort _ _

/-- The cut that the delimiter stage actually produces: the first
delimiter in source order whose last occurrence is at a positive
position wins, the break lands after its punctuation character; with no
winner the cut falls back to the space position when positive, else to
the width. -/
def claimPriorityCut (s : List Char) (w : Nat) : Nat :=
  match HW_DELIMS.find? fun p => decide (0 < strRfind s p w) with
  | some p => (strRfind s p w + (p.length : Int) - 1).toNat
  | none => if 0 < strRfind s [' '] w then (strRfind s [' '] w).toNat else w

theorem punctLoop_eq_find (s : List Char) (w : Nat) (cut0 : Int) :
    ∀ ps : List (List Char), punctLoop s w ps cut0 =
      match ps.find? fun p => decide (0 < strRfind s p w) with
      | some p => strRfind s p w + (p.length : Int) - 1
      | none => cut0 := by
  intro ps
  induction ps with
  | nil => rfl
  | cons p ps ih =>
    simp only [punctLoop]
    by_cases h : 0 < strRfind s p w
    · rw [if_pos h]
      rw [List.find?_cons_of_pos _ (by simp [h])]
    · rw [if_neg h]
      rw [List.find?_cons_of_neg _ (by simp [h])]
      exact ih

theorem cutPos_eq_claimPriorityCut (s : List Char) (w : Nat)
    (hsp : 10 * strRfind s [' '] w < 6 * (w : Int)) :
    cutPos s w = claimPriorityCut s w := by
  unfold cutPos claimPriorityCut
  rw [if_pos hsp]
  rw [punctLoop_eq_find]
  cases hf : HW_DELIMS.find? fun p => decide (0 < strRfind s p w) with
  | some p =>
    dsimp only
    have hpos : 0 < strRfind s p w := by
      have := List.find?_some hf
      simpa using this
    have hlen : p.length = 2 := by
      have hmem := List.mem_of_find?_eq_some hf
      simp [HW_DELIMS] at hmem
      rcases hmem with rfl | rfl | rfl | rfl | rfl | rfl <;> rfl
    have hlen2 : (p.length : Int) = 2 := by
      rw [hlen]
      norm_num
    rw [hlen2]
    have hne : ¬ (strRfind s p w + 2 - 1 ≤ (0 : Int)) := by omega
    rw [if_neg hne]
  | none =>
    dsimp only
    by_cases h : 0 < strRfind s [' '] w
    · rw [if_neg (by omega), if_pos h]
    · rw [if_pos (by omega), if_neg h]

theorem hard_wrap_ne_nil (lines : List (List Char)) (width : Int)
    (h : ∀ l ∈ lines, l ≠ [] ∧ goodHead l = true) :
    ∀ l ∈ hard_wrap_lines lines width, l ≠ [] := by
  intro l hl
  unfold hard_wrap_lines at hl
  split at hl
  · exact (h l hl).1
  · rw [List.mem_flatMap] at hl
    obtain ⟨s, hs, hls⟩ := hl
    exact (wrapLine_good _ _ s (h s hs).2 l hls).1

/-- A 48-byte file header with all flags clear. -/
def fhBytesPlain : List Nat := List.replicate 48 0

/-- A 48-byte file header whose attribute word has bit 1 (encryption)
set. -/
def fhBytesEnc : List Nat := List.replicate 36 0 ++ [2, 0, 0, 0] ++ List.replicate 8 0

/-- A compound file whose header carries the encryption bit. -/
def encOle : Ole := ⟨[(["FileHeader".data], fhBytesEnc)]⟩

/-- A plain compound file with one body stream holding a single tag-66
record whose payload is UTF-16LE "ab". -/
def demoOle : Ole := ⟨[(["FileHeader".data], fhBytesPlain),
  (["BodyText".data, "Section0".data], [66, 0, 64, 0, 97, 0, 98, 0])]⟩

/-- A compound file with body streams numbered 1, 10 and 2, listed in
that directory order. -/
def sampleOle : Ole := ⟨[(["FileHeader".data], fhBytesPlain),
  (["BodyText".data, "Section1".data], [1]),
  (["BodyText".data, "Section10".data], [2]),
  (["BodyText".data, "Section2".data], [3])]⟩

/-- A section tree with two sibling paragraphs, the first holding text
both directly and inside a child element. -/
def c2tree : Elem := .mk "root".data "".data
  [.mk "p".data "A".data [.mk "t".data "B".data [] "".data] "".data,
   .mk "p".data "C".data [] "".data] "".data

/-- Claim C1, counterexample: on the buffer `[0, 4, 0, 0, 171]` (header
word `0x400`, i.e. bit 10 set) the source decode takes declared size 0
and yields an empty payload, while the bits-10-through-21 reading of
the claim would take declared size 1 and consume the trailing byte, so
the decode the claim describes differs from the code. -/
theorem C1_size_bits_counterexample :
    iterRecords [0, 4, 0, 0, 171] = [(0, [])] ∧
    iterRecordsBits10 [0, 4, 0, 0, 171] = [(0, [171])] ∧
    iterRecords [0, 4, 0, 0, 171] ≠ iterRecordsBits10 [0, 4, 0, 0, 171] := by
  have h1 : iterRecords [0, 4, 0, 0, 171] = [(0, [])] := by
    simp +decide [iterRecords, iterRecordsFrom, u32le, listSlice]
  have h2 : iterRecordsBits10 [0, 4, 0, 0, 171] = [(0, [171])] := by
    simp +decide [iterRecordsBits10, iterRecordsBits10From, u32le, listSlice]
  refine ⟨h1, h2, ?_⟩
  rw [h1, h2]
  decide

/-- Claim C1, amended: the record header is one 4-byte little-endian
word; its low 10 bits (`hdr % 2 ^ 10`) are the tag id and its top 12
bits, bits 20 through 31 (`hdr / 2 ^ 20 % 2 ^ 12`), are the declared
payload size (bits 10 through 19 are skipped); when the declared size
equals the escape value 4095 one further 4-byte little-endian word is
read as the true size. -/
theorem C1_header_fields_amended (buf : List Nat) :
    iterRecords buf = iterRecordsArith buf :=
  iterRecordsFrom_eq_arith buf buf.length 0 (by omega)

/-- Claim C2, code divergence: the stack-based loop appends a node's
tail text and performs the paragraph flush when the node is first
visited, before its children are walked, so on `c2tree` it emits
`["A", "BC"]` while the document-order traversal the claim describes
emits `["AB", "C"]`. -/
theorem C2_tail_order_divergence :
    sectionLines c2tree = ["A".data, "BC".data] ∧
    specSectionLines c2tree = ["AB".data, "C".data] ∧
    sectionLines c2tree ≠ specSectionLines c2tree := by
  have h1 : sectionLines c2tree = ["A".data, "BC".data] := by
    simp +decide [c2tree, sectionLines, hwpxWalk, doFlush, lname, collapseSpaces,
      pyStrip, pyLstrip, pyRstrip, BR_TAGS, TABLE_BREAK_TAGS, PARA_END_TAGS]
  have h2 : specSectionLines c2tree = ["AB".data, "C".data] := by
    simp +decide [c2tree, specSectionLines, specVisit, specVisitList, doFlush, lname,
      collapseSpaces, pyStrip, pyLstrip, pyRstrip, BR_TAGS, TABLE_BREAK_TAGS,
      PARA_END_TAGS]
  refine ⟨h1, h2, ?_⟩
  rw [h1, h2]
  decide

/-- Claim C3, counterexample: with parts `Contents/section2.xml` and
`Contents/section10.xml` the source processes section 10 first, because
the names are sorted lexicographically, not by section number as the
claim states. -/
theorem C3_section_order_counterexample :
    hwpxSections ["Contents/section2.xml".data, "Contents/section10.xml".data] =
      ["Contents/section10.xml".data, "Contents/section2.xml".data] ∧
    hwpxSections ["Contents/section2.xml".data, "Contents/section10.xml".data] ≠
      hwpxSectionsNumeric
        ["Contents/section2.xml".data, "Contents/section10.xml".data] := by
  constructor
  · decide
  · decide

/-- Claim C3, amended: the matched body section parts are processed in
ascending lexicographic (code point) file-name order, so a section
numbered 10 is processed before a section numbered 2; only when no part
matches does the extractor fall back to every XML part of the archive,
again in file-name sort order. -/
theorem C3_section_order_lex (names : List (List Char)) :
    List.Sorted (fun a b => lexLe a b = true) (hwpxSections names) ∧
    (hwpxSections names).Perm
      (if (names.filter isSectionName).isEmpty then names.filter isXmlName
       else names.filter isSectionName) :=
  ⟨hwpxSections_sorted names, hwpxSections_perm names⟩

/-- Claim C4, counterexample: on the line `"a. b, cdddd…"` at width 20
the space condition sends the code to the delimiter stage, where the
last occurrence of any delimiter of the set is the comma-space at
position 4, yet the code cuts at position 2 because it tries the
period-space delimiter first; the hard-wrap the claim describes
therefore differs from the code on this input. -/
theorem C4_delimiter_counterexample :
    hard_wrap_lines ["a. b, cddddddddddddddddd".data] 20 =
      ["a.".data, "b,".data, "cddddddddddddddddd".data] ∧
    claimHardWrap ["a. b, cddddddddddddddddd".data] 20 =
      ["a. b,".data, "cddddddddddddddddd".data] ∧
    hard_wrap_lines ["a. b, cddddddddddddddddd".data] 20 ≠
      claimHardWrap ["a. b, cddddddddddddddddd".data] 20 := by
  have h1 : hard_wrap_lines ["a. b, cddddddddddddddddd".data] 20 =
      ["a.".data, "b,".data, "cddddddddddddddddd".data] := by
    simp +decide [hard_wrap_lines, wrapLine]
  have h2 : claimHardWrap ["a. b, cddddddddddddddddd".data] 20 =
      ["a. b,".data, "cddddddddddddddddd".data] := by
    simp +decide [claimHardWrap, claimWrapLine]
  refine ⟨h1, h2, ?_⟩
  rw [h1, h2]
  decide

/-- Claim C4, amended: for a line longer than a positive width, when
the last plain space before the width is absent or lies before 60% of
the width, the break is chosen by trying the delimiters in the fixed
source order (period-space, parenthesis-space, bracket-space,
middle-dot-space, bullet-space, comma-space): the first delimiter type
whose last occurrence is at a positive position wins and the break lands
immediately after its punctuation character; when none wins the cut
falls back to the space position if positive, and only otherwise is the
line cut exactly at the width offset. -/
theorem C4_delimiter_priority (s : List Char) (w : Nat) (hw : 0 < w)
    (hlen : w < s.length)
    (hsp : 10 * strRfind s [' '] w < 6 * (w : Int)) :
    wrapLine w hw s =
      pyRstrip (s.take (claimPriorityCut s w)) ::
        wrapLine w hw (pyLstrip (s.drop (claimPriorityCut s w))) := by
  rw [wrapLine_eq_pos w hw s hlen]
  rw [cutPos_eq_claimPriorityCut s w hsp]

/-- Claim C4, witness: the amended break rule applied to the
counterexample line at width 20, whose priority cut is 2 (just after
the period of the period-space delimiter). -/
theorem C4_delimiter_priority_witness :
    claimPriorityCut "a. b, cddddddddddddddddd".data 20 = 2 ∧
    wrapLine 20 (by omega) "a. b, cddddddddddddddddd".data =
      pyRstrip ("a. b, cddddddddddddddddd".data.take
        (claimPriorityCut "a. b, cddddddddddddddddd".data 20)) ::
        wrapLine 20 (by omega) (pyLstrip ("a. b, cddddddddddddddddd".data.drop
          (claimPriorityCut "a. b, cddddddddddddddddd".data 20))) :=
  ⟨by decide,
   C4_delimiter_priority "a. b, cddddddddddddddddd".data 20 (by omega)
     (by decide) (by decide)⟩

/-- Claim C5: whenever the file header stream parses and its attribute
word has bit 1 (the encryption flag) set, the Format A extraction fails
with the encrypted-document error, so no line and no partial output is
produced. -/
theorem C5_encrypted_fails (ole : Ole) (inflate : List Nat → Option (List Nat))
    (raw : List Nat) (hraw : ole.stream ["FileHeader".data] = some raw)
    (hlen : 48 ≤ raw.length) (henc : (u32le raw 36).testBit 1 = true) :
    extract_hwp_lines ole inflate = .error .encryptedDocument := by
  have hb := Nat.and_two_pow (u32le raw 36) 1
  rw [henc] at hb
  norm_num at hb
  unfold extract_hwp_lines readFileheader
  rw [hraw]
  dsimp only
  rw [if_neg (by omega)]
  dsimp only
  simp [hb]

/-- Claim C5, witness: a concrete encrypted container is rejected with
the encrypted-document error. -/
theorem C5_encrypted_fails_witness :
    extract_hwp_lines encOle (fun _ => none) = .error .encryptedDocument :=
  C5_encrypted_fails encOle (fun _ => none) fhBytesEnc (by decide) (by decide)
    (by decide)

/-- Claim C6, counterexample: wrapping the single line of ten spaces
followed by `abc` at width 5 yields `["", "abc"]` — the first emitted
piece is empty — and re-wrapping that output drops the empty line, so
hard-wrap applied to its own output differs from the output. -/
theorem C6_not_idempotent_counterexample :
    hard_wrap_lines ["          abc".data] 5 = [[], "abc".data] ∧
    hard_wrap_lines (hard_wrap_lines ["          abc".data] 5) 5 ≠
      hard_wrap_lines ["          abc".data] 5 := by
  have h1 : hard_wrap_lines ["          abc".data] 5 = [[], "abc".data] := by
    simp +decide [hard_wrap_lines, wrapLine]
  have h2 : hard_wrap_lines [[], "abc".data] 5 = ["abc".data] := by
    simp +decide [hard_wrap_lines, wrapLine]
  refine ⟨h1, ?_⟩
  rw [h1, h2]
  decide

/-- Claim C6, amended: hard-wrap is idempotent on line sequences in
which no line begins with a whitespace character (every line either
format path emits is of that shape); re-wrapping such a wrapped
sequence at the same width returns it unchanged. -/
theorem C6_idempotent_amended (lines : List (List Char)) (width : Int)
    (h : ∀ l ∈ lines, goodHead l = true) :
    hard_wrap_lines (hard_wrap_lines lines width) width =
      hard_wrap_lines lines width := by
  by_cases hw0 : width ≤ 0
  · unfold hard_wrap_lines
    simp only [dif_pos hw0]
  · unfold hard_wrap_lines
    simp only [dif_neg hw0]
    apply flatMap_wrap_fixed
    intro t ht
    rw [List.mem_flatMap] at ht
    obtain ⟨s, hs, hts⟩ := ht
    have hgood := wrapLine_good width.toNat (by omega) s (h s hs) t hts
    rw [wrapLine_eq_short width.toNat (by omega) t (by omega)]
    cases t with
    | nil => exact absurd rfl hgood.1
    | cons a ts => simp

/-- Claim C6, witness: the amended idempotence at a concrete wrapped
sequence. -/
theorem C6_idempotent_witness :
    (∀ l ∈ ["ab cd".data], goodHead l = true) ∧
    hard_wrap_lines (hard_wrap_lines ["ab cd".data] 3) 3 =
      hard_wrap_lines ["ab cd".data] 3 :=
  ⟨by decide, C6_idempotent_amended ["ab cd".data] 3 (by decide)⟩

/-- Claim C7: every element of the final line sequence — produced by
either format path and passed through the optional hard-wrap — is a
non-empty string. -/
theorem C7_final_lines_nonempty :
    (∀ (ole : Ole) (inflate : List Nat → Option (List Nat)) (width : Int)
       (lines : List (List Char)), extract_hwp_lines ole inflate = .ok lines →
       ∀ l ∈ hard_wrap_lines lines width, l ≠ []) ∧
    (∀ (arc : List (List Char × Option Elem)) (width : Int),
       ∀ l ∈ hard_wrap_lines (extract_hwpx_lines arc) width, l ≠ []) := by
  constructor
  · intro ole inflate width lines hok l hl
    exact hard_wrap_ne_nil lines width (extract_hwp_good ole inflate lines hok) l hl
  · intro arc width l hl
    exact hard_wrap_ne_nil _ width (extract_hwpx_good arc) l hl

set_option maxRecDepth 10000 in
/-- Claim C7, witness: the demo container extracts the single line
`"ab"`, and the theorem yields its non-emptiness once the extraction
and membership hypotheses are discharged. -/
theorem C7_final_lines_nonempty_witness :
    extract_hwp_lines demoOle (fun _ => none) = .ok ["ab".data] ∧
    "ab".data ∈ hard_wrap_lines ["ab".data] 0 ∧
    "ab".data ≠ ([] : List Char) := by
  have hrl : recordLines [66, 0, 64, 0, 97, 0, 98, 0] = ["ab".data] := by
    simp +decide [recordLines, iterRecords, iterRecordsFrom, u32le, listSlice,
      paraTextLines, utf16leDecode, splitNl, ctrlToSpace, pyStrip, pyLstrip, pyRstrip]
  have hbe : bodyEntries demoOle =
      [(["BodyText".data, "Section0".data], [66, 0, 64, 0, 97, 0, 98, 0])] := by
    decide
  have hfh : readFileheader demoOle = .ok ⟨false, false, 0⟩ := rfl
  have hok : extract_hwp_lines demoOle (fun _ => none) = .ok ["ab".data] := by
    unfold extract_hwp_lines
    rw [hfh]
    dsimp only
    rw [hbe]
    simp [zlibIfNeeded, hrl]
  have hmem : "ab".data ∈ hard_wrap_lines ["ab".data] 0 := by
    simp +decide [hard_wrap_lines]
  exact ⟨hok, hmem,
    C7_final_lines_nonempty.1 demoOle (fun _ => none) 0 ["ab".data] hok "ab".data hmem⟩

/-- Claim C8: when the computed payload size of a record overruns the
remaining buffer, the decoder yields that record with the payload
clamped to exactly the remaining bytes and stops after it, raising no
error. -/
theorem C8_truncated_clamped (buf : List Nat) (off ps sz : Nat)
    (h4 : off + 4 ≤ buf.length)
    (hps : ps = if (u32le buf off >>> 20) &&& 0xFFF = 0xFFF then off + 8 else off + 4)
    (hsz : sz = if (u32le buf off >>> 20) &&& 0xFFF = 0xFFF then u32le buf (off + 4)
                else (u32le buf off >>> 20) &&& 0xFFF)
    (h8 : (u32le buf off >>> 20) &&& 0xFFF = 0xFFF → off + 8 ≤ buf.length)
    (hov : buf.length < ps + sz) :
    iterRecordsFrom buf off =
      [(u32le buf off &&& 0x3FF, listSlice buf ps buf.length)] ∧
    (listSlice buf ps buf.length).length = buf.length - ps := by
  have hslice : (listSlice buf ps buf.length).length = buf.length - ps := by
    unfold listSlice
    rw [List.take_length, List.length_drop]
  refine ⟨?_, hslice⟩
  subst hps
  subst hsz
  conv_lhs => unfold iterRecordsFrom
  rw [dif_pos h4]
  by_cases hesc : (u32le buf off >>> 20) &&& 0xFFF = 0xFFF
  · rw [if_pos hesc]
    rw [dif_pos (h8 hesc)]
    simp only [if_pos hesc] at hov ⊢
    rw [dif_pos hov]
  · rw [if_neg hesc]
    simp only [if_neg hesc] at hov ⊢
    rw [dif_pos hov]

/-- Claim C8, witness: the buffer `[0, 0, 32, 0, 9]` declares a 2-byte
payload with only one byte remaining; the decoder yields one record
with that single byte and stops. -/
theorem C8_truncated_clamped_witness :
    iterRecordsFrom [0, 0, 32, 0, 9] 0 =
      [(u32le [0, 0, 32, 0, 9] 0 &&& 0x3FF, listSlice [0, 0, 32, 0, 9] 4 5)] ∧
    (listSlice [0, 0, 32, 0, 9] 4 5).length = 5 - 4 :=
  C8_truncated_clamped [0, 0, 32, 0, 9] 0 4 2 (by decide) (by decide) (by decide)
    (by decide) (by decide)

/-- Claim C9: the body-text streams are processed sorted ascending by
the integer formed from the digit characters of the stream name (zero
when there are none), and on a directory holding sections 1, 10 and 2
the processing order is 1, 2, 10. -/
theorem C9_numeric_stream_order :
    (∀ ole : Ole,
      List.Sorted (fun a b => entryKey a.1 ≤ entryKey b.1) (bodyEntries ole) ∧
      (bodyEntries ole).Perm (ole.dir.filter fun e => isBodyEntry e.1)) ∧
    (bodyEntries sampleOle).map (fun e => e.1) =
      [["BodyText".data, "Section1".data], ["BodyText".data, "Section2".data],
       ["BodyText".data, "Section10".data]] :=
  ⟨fun ole => ⟨bodyEntries_sorted ole, bodyEntries_perm ole⟩, by decide⟩

/-- Claim C10: decoding a record stream is total and consumes at least
four bytes per record, so from any offset the number of records emitted
is bounded by a quarter of the remaining bytes — iterating the stream
terminates on every finite buffer, malformed or not. -/
theorem C10_record_loop_progress (buf : List Nat) (off : Nat) :
    4 * (iterRecordsFrom buf off).length ≤ buf.length - off ∧
    4 * (iterRecords buf).length ≤ buf.length := by
  constructor
  · exact iterRecordsFrom_len_aux buf (buf.length - off) off le_rfl
  · have h := iterRecordsFrom_len_aux buf buf.length 0 (by omega)
    unfold iterRecords
    omega
